import Mathlib

/-!
Shallow embedding of the core of `src/backend/financial_data.py`:
the RSI indicator (`calculate_rsi`), article-timestamp normalization
(`set_article_index_to_datetime`), the daily headline aggregation and the
tolerance-bounded nearest-date merge (`combine_headlines_with_financial`,
which the source implements with a pandas merge_asof in nearest mode).

Modelling conventions:
* Timestamps are integers counted in hours; a calendar day spans 24 units,
  so `Timedelta(days=k)` becomes `24 * k` and `index.normalize()` becomes
  truncation to the enclosing multiple of 24.
* Numeric series cells are rationals; a float NaN cell is `Option.none`.
  The IEEE behaviour of `avg_gain / avg_loss` on the two zero-denominator
  cases (positive/0 = +inf giving RSI 100, and 0/0 = NaN) is split out
  explicitly in `rsiFromAvgs`.
* A pandas cell that may hold NaN instead of a string is `Option String`.
* `pd.to_datetime(x, errors := coerce)` on one cell is `parseTs`, returning
  the UTC instant together with whether the parsed value was tz-aware;
  an unparsable or missing cell parses to `none` (NaT).
* `DatetimeIndex.tz_convert(None)` succeeds exactly on a tz-aware index
  (pandas raises on a naive one and the source swallows that exception),
  so `tzConvertNone` strips the aware flag only when every entry is aware.
* `sort_index`/`sort_values` are modelled by `List.insertionSort` on the
  timestamp key.
-/

namespace FinancialData

/-- One day in the integer time scale (hours). -/
def hoursPerDay : ℤ := 24

/-- `index.normalize()`: truncate a timestamp to the start of its calendar
day (floor to a multiple of 24 hours). -/
def dayStart (t : ℤ) : ℤ := t - t % hoursPerDay

/-! ## Indicator Calculator: `calculate_rsi` -/

/-- `Series.diff()` on the Close column: first cell NaN, then successive
differences, same length as the input. -/
def diffClose : List ℚ → List (Option ℚ)
  | [] => []
  | p :: t => none :: List.zipWith (fun a b => some (b - a)) (p :: t) t

/-- `delta.where(delta > 0, 0).fillna(0)`: positive part, NaN to 0. -/
def gainCell : Option ℚ → ℚ
  | none => 0
  | some d => if 0 < d then d else 0

/-- `(-delta.where(delta < 0, 0)).fillna(0)`: magnitude of the negative
part, NaN to 0. -/
def lossCell : Option ℚ → ℚ
  | none => 0
  | some d => if d < 0 then -d else 0

/-- The trailing window ending at cell `i` for a rolling width of `n`:
the last `min (i+1) n` of the first `i+1` cells. -/
def trailingWindow (n : ℕ) (xs : List ℚ) (i : ℕ) : List ℚ :=
  (xs.take (i + 1)).drop (i + 1 - n)

/-- The mean of the trailing window at cell `i`. -/
def windowAvg (n : ℕ) (xs : List ℚ) (i : ℕ) : ℚ :=
  (trailingWindow n xs i).sum / ((trailingWindow n xs i).length : ℚ)

/-- `Series.rolling(window := n, min_periods := 1).mean()`: cell `i`
averages the trailing window of the `min (i+1) n` most recent cells. -/
def rollingMean (n : ℕ) (xs : List ℚ) : List ℚ :=
  (List.range xs.length).map (windowAvg n xs)

/-- `100 - 100/(1 + avg_gain/avg_loss)` under float semantics for
nonnegative averages: denominator 0 gives RS = +inf hence RSI = 100 when
the gain average is positive, and RS = 0/0 = NaN (cell `none`) when both
averages are 0. -/
def rsiFromAvgs (ag al : ℚ) : Option ℚ :=
  if al = 0 then (if ag = 0 then none else some 100)
  else some (100 - 100 / (1 + ag / al))

/-- `calculate_rsi(data, rsi_period)` from the source, on the Close
column. -/
def calculate_rsi (closes : List ℚ) (rsi_period : ℕ) : List (Option ℚ) :=
  List.zipWith rsiFromAvgs
    (rollingMean rsi_period ((diffClose closes).map gainCell))
    (rollingMean rsi_period ((diffClose closes).map lossCell))

/-! ## Article model and `set_article_index_to_datetime` -/

/-- A raw timestamp cell: either parsable to a UTC instant (with a flag
recording whether the representation carried a timezone offset), or
unparsable/missing. -/
inductive RawTs where
  | valid (t : ℤ) (aware : Bool)
  | invalid
deriving DecidableEq, Repr

/-- `pd.to_datetime(cell, errors := coerce)`: NaT on failure. -/
def parseTs : RawTs → Option (ℤ × Bool)
  | .valid t aware => some (t, aware)
  | .invalid => none

/-- The instant stored in a valid timestamp (0 for the unparsable cell,
which never occurs after normalization). -/
def tsOf : RawTs → ℤ
  | .valid t _ => t
  | .invalid => 0

/-- One article row: the DataFrame index entry, the `published_date`
column cell (meaningful only while that column exists) and the headline
cell (NaN as `none`). -/
structure ArticleRow where
  idxTs : RawTs
  colTs : RawTs
  headline : Option String
deriving DecidableEq, Repr

/-- An article DataFrame: whether the configured date column is present,
plus the rows. -/
structure ArticleDF where
  hasDateCol : Bool
  rows : List ArticleRow
deriving DecidableEq, Repr

/-- The timestamp cell the source parses: the `date_col` column when
present, otherwise the existing index. -/
def dateSource (df : ArticleDF) (r : ArticleRow) : RawTs :=
  if df.hasDateCol then r.colTs else r.idxTs

/-- A parsed row while the index is being rebuilt: (instant, aware flag)
with the headline payload. -/
abbrev NRow : Type := (ℤ × Bool) × Option String

/-- `df.index.tz_convert(None)` inside try/except: a tz-aware index is
converted to naive UTC (instants preserved); on a naive index pandas
raises and the source keeps the index unchanged. -/
def tzConvertNone (l : List NRow) : List NRow :=
  if l.all (fun p => p.1.2) then l.map (fun p => ((p.1.1, false), p.2)) else l

/-- Ordering key used by `sort_index`. -/
def nrowLe (p q : NRow) : Prop := p.1.1 ≤ q.1.1

instance : DecidableRel nrowLe := fun p q => inferInstanceAs (Decidable (p.1.1 ≤ q.1.1))

instance : IsTotal NRow nrowLe := ⟨fun p q => le_total p.1.1 q.1.1⟩

instance : IsTrans NRow nrowLe := ⟨fun _ _ _ h h2 => le_trans h h2⟩

/-- Rebuild an `ArticleRow` from a processed row: the parsed timestamp is
now the index and the date column has been consumed by `set_index`. -/
def mkIndexedRow (p : NRow) : ArticleRow :=
  ⟨.valid p.1.1 p.1.2, .invalid, p.2⟩

/-- `set_article_index_to_datetime(article_df, date_col)`: empty input
gives an empty frame; otherwise parse the date source of each row with
coerce semantics, drop the rows that parsed to NaT, set the result as
index, strip the timezone if the index is aware, and sort ascending. -/
def set_article_index_to_datetime (df : ArticleDF) : ArticleDF :=
  if df.rows.isEmpty then ⟨false, []⟩
  else
    let parsed : List NRow :=
      df.rows.filterMap (fun r => (parseTs (dateSource df r)).map (fun t => (t, r.headline)))
    ⟨false, (List.insertionSort nrowLe (tzConvertNone parsed)).map mkIndexedRow⟩

/-! ## Daily Aggregator (the groupby inside the merge) -/

/-- The separator the source joins same-day headlines with. -/
def headlineSep : String := " || "

/-- `groupby("_date")[headline_col].apply(lambda s: " || ".join(s.dropna().astype(str)))`
over (timestamp, headline) pairs: group keys are the day starts, sorted
ascending and deduplicated; each group joins its non-NaN headlines in row
order. -/
def aggregateDaily (rows : List (ℤ × Option String)) : List (ℤ × String) :=
  let days := List.insertionSort (· ≤ ·) ((rows.map (fun r => dayStart r.1)).dedup)
  days.map (fun d =>
    (d, String.intercalate headlineSep
          ((rows.filter (fun r => decide (dayStart r.1 = d))).filterMap (fun r => r.2))))

/-- Daily aggregation as the spec sentence for the aggregator words it:
null/missing headlines are converted to empty strings before joining
(instead of being dropped). Used only to compare against the source's
`aggregateDaily`. -/
def aggregateDailySpec (rows : List (ℤ × Option String)) : List (ℤ × String) :=
  let days := List.insertionSort (· ≤ ·) ((rows.map (fun r => dayStart r.1)).dedup)
  days.map (fun d =>
    (d, String.intercalate headlineSep
          ((rows.filter (fun r => decide (dayStart r.1 = d))).map (fun r => r.2.getD ""))))

/-! ## Nearest-Date Merger: `pd.merge_asof(direction := nearest)` -/

/-- The backward half of the asof join: the last right key at or before
`d` within the tolerance. -/
def backwardMatch (agg : List (ℤ × String)) (d tol : ℤ) : Option (ℤ × String) :=
  (agg.filter (fun b => decide (b.1 ≤ d ∧ d - b.1 ≤ tol))).getLast?

/-- The forward half of the asof join: the first right key at or after
`d` within the tolerance. -/
def forwardMatch (agg : List (ℤ × String)) (d tol : ℤ) : Option (ℤ × String) :=
  (agg.filter (fun b => decide (d ≤ b.1 ∧ b.1 - d ≤ tol))).head?

/-- `merge_asof` with `direction = nearest`: take the backward and
forward candidates and keep the closer one, the backward (earlier) one
when the distances tie — this is the tie rule of the pandas
implementation. -/
def nearestMatch (agg : List (ℤ × String)) (d tol : ℤ) : Option (ℤ × String) :=
  match backwardMatch agg d tol, forwardMatch agg d tol with
  | none, none => none
  | some b, none => some b
  | none, some f => some f
  | some b, some f => if d - b.1 ≤ f.1 - d then some b else some f

/-- The daily buckets the merge builds from an article frame: normalize,
then aggregate by calendar day. -/
def aggOf (art : ArticleDF) : List (ℤ × String) :=
  aggregateDaily ((set_article_index_to_datetime art).rows.map (fun q => (tsOf q.idxTs, q.headline)))

/-- Ordering key of the financial frame (`sort_index` on price rows
carrying an arbitrary payload). -/
def finLe {F : Type} (p q : ℤ × F) : Prop := p.1 ≤ q.1

instance {F : Type} : DecidableRel (finLe (F := F)) :=
  fun p q => inferInstanceAs (Decidable (p.1 ≤ q.1))

instance {F : Type} : IsTotal (ℤ × F) finLe := ⟨fun p q => le_total p.1 q.1⟩

instance {F : Type} : IsTrans (ℤ × F) finLe := ⟨fun _ _ _ h h2 => le_trans h h2⟩

/-- `combine_headlines_with_financial(financial_df, article_df, ...,
max_days_diff)`: empty price frame gives an empty frame; otherwise sort
the price rows, normalize the articles; with no usable articles attach
`pd.NA` everywhere, else attach per price row the nearest daily bucket
within `24 * max_days_diff` hours. -/
def combine_headlines_with_financial {F : Type} (fin : List (ℤ × F)) (art : ArticleDF)
    (max_days_diff : ℕ) : List (ℤ × F × Option String) :=
  if fin.isEmpty then []
  else if (set_article_index_to_datetime art).rows.isEmpty then
    (List.insertionSort finLe fin).map (fun p => (p.1, p.2, none))
  else
    (List.insertionSort finLe fin).map (fun p =>
      (p.1, p.2, (nearestMatch (aggOf art) p.1 (hoursPerDay * (max_days_diff : ℤ))).map Prod.snd))

/-! ## Concrete sample inputs used for witnesses and counterexamples -/

/-- Articles "A" at hour 0 and "B" at hour 48 (calendar days 0 and 2),
carried in the `published_date` column. -/
def sampleArticlesAB : ArticleDF :=
  ⟨true, [⟨.invalid, .valid 0 false, some "A"⟩, ⟨.invalid, .valid 48 false, some "B"⟩]⟩

/-- A single article "A" at hour 0. -/
def sampleArticleA : ArticleDF := ⟨true, [⟨.invalid, .valid 0 false, some "A"⟩]⟩

/-- A single article "B" at hour 120, five days from price date 0. -/
def sampleArticleFar : ArticleDF := ⟨true, [⟨.invalid, .valid 120 false, some "B"⟩]⟩

/-- Two same-day articles, the first with a NaN headline. -/
def sampleRowsNullA : List (ℤ × Option String) := [(0, none), (5, some "A")]

/-- A frame without the `published_date` column whose only index entry is
unparsable. -/
def sampleBadIndex : ArticleDF := ⟨false, [⟨.invalid, .invalid, some "A"⟩]⟩

/-- A frame without the `published_date` column carrying two parsable
index entries (hours 48 and 0) and one unparsable one. -/
def sampleIndexOnly : ArticleDF :=
  ⟨false, [⟨.valid 48 false, .invalid, some "B"⟩, ⟨.invalid, .invalid, some "X"⟩,
    ⟨.valid 0 false, .invalid, some "A"⟩]⟩

/-! ## Helper lemmas: extremal elements of sorted lists -/

lemma key_le_of_getLast? :
    ∀ {l : List (ℤ × String)}, l.Pairwise (fun a b => a.1 ≤ b.1) →
      ∀ {m : ℤ × String}, l.getLast? = some m → ∀ c ∈ l, c.1 ≤ m.1 := by
  intro l
  induction l with
  | nil => intro _ m hm; simp at hm
  | cons a t ih =>
    intro hs m hm c hc
    rcases List.pairwise_cons.mp hs with ⟨ha, ht⟩
    cases t with
    | nil =>
      simp at hm
      rcases List.mem_singleton.mp hc with rfl
      simp [hm]
    | cons b t2 =>
      rw [List.getLast?_cons_cons] at hm
      have hmem : m ∈ b :: t2 := List.mem_of_getLast?_eq_some hm
      rcases List.mem_cons.mp hc with rfl | hc2
      · exact le_trans (ha b (List.mem_cons_self b t2)) (ih ht hm b (List.mem_cons_self b t2))
      · exact ih ht hm c hc2

lemma key_ge_of_head? {l : List (ℤ × String)} (hs : l.Pairwise (fun a b => a.1 ≤ b.1))
    {m : ℤ × String} (hm : l.head? = some m) : ∀ c ∈ l, m.1 ≤ c.1 := by
  cases l with
  | nil => simp at hm
  | cons a t =>
    simp at hm
    subst hm
    rcases List.pairwise_cons.mp hs with ⟨ha, _⟩
    intro c hc
    rcases List.mem_cons.mp hc with rfl | hc2
    · exact le_refl _
    · exact ha c hc2

/-! ## Properties of the backward and forward asof candidates -/

lemma backwardMatch_eq_some_spec {agg : List (ℤ × String)} {d tol : ℤ}
    (hs : agg.Pairwise (fun a b => a.1 ≤ b.1)) {m : ℤ × String}
    (hm : backwardMatch agg d tol = some m) :
    m ∈ agg ∧ m.1 ≤ d ∧ d - m.1 ≤ tol ∧
      ∀ c ∈ agg, c.1 ≤ d → d - c.1 ≤ tol → c.1 ≤ m.1 := by
  unfold backwardMatch at hm
  have hmemf := List.mem_of_getLast?_eq_some hm
  have hmem := (List.mem_filter.mp hmemf).1
  have hp := (List.mem_filter.mp hmemf).2
  simp only [decide_eq_true_eq] at hp
  have hsf : (agg.filter (fun b => decide (b.1 ≤ d ∧ d - b.1 ≤ tol))).Pairwise
      (fun a b => a.1 ≤ b.1) := List.Pairwise.sublist (List.filter_sublist agg) hs
  refine ⟨hmem, hp.1, hp.2, ?_⟩
  intro c hc h1 h2
  refine key_le_of_getLast? hsf hm c (List.mem_filter.mpr ⟨hc, ?_⟩)
  simp only [decide_eq_true_eq]
  exact ⟨h1, h2⟩

lemma backwardMatch_eq_none_spec {agg : List (ℤ × String)} {d tol : ℤ}
    (hm : backwardMatch agg d tol = none) :
    ∀ c ∈ agg, ¬(c.1 ≤ d ∧ d - c.1 ≤ tol) := by
  unfold backwardMatch at hm
  rw [List.getLast?_eq_none_iff, List.filter_eq_nil_iff] at hm
  intro c hc h
  refine hm c hc ?_
  simp only [decide_eq_true_eq]
  exact h

lemma forwardMatch_eq_some_spec {agg : List (ℤ × String)} {d tol : ℤ}
    (hs : agg.Pairwise (fun a b => a.1 ≤ b.1)) {m : ℤ × String}
    (hm : forwardMatch agg d tol = some m) :
    m ∈ agg ∧ d ≤ m.1 ∧ m.1 - d ≤ tol ∧
      ∀ c ∈ agg, d ≤ c.1 → c.1 - d ≤ tol → m.1 ≤ c.1 := by
  unfold forwardMatch at hm
  have hcons := List.head?_eq_some_iff.mp hm
  have hmemf : m ∈ agg.filter (fun b => decide (d ≤ b.1 ∧ b.1 - d ≤ tol)) := by
    rcases hcons with ⟨ys, hys⟩
    rw [hys]; exact List.mem_cons_self _ _
  have hmem := (List.mem_filter.mp hmemf).1
  have hp := (List.mem_filter.mp hmemf).2
  simp only [decide_eq_true_eq] at hp
  have hsf : (agg.filter (fun b => decide (d ≤ b.1 ∧ b.1 - d ≤ tol))).Pairwise
      (fun a b => a.1 ≤ b.1) := List.Pairwise.sublist (List.filter_sublist agg) hs
  refine ⟨hmem, hp.1, hp.2, ?_⟩
  intro c hc h1 h2
  refine key_ge_of_head? hsf hm c (List.mem_filter.mpr ⟨hc, ?_⟩)
  simp only [decide_eq_true_eq]
  exact ⟨h1, h2⟩

lemma forwardMatch_eq_none_spec {agg : List (ℤ × String)} {d tol : ℤ}
    (hm : forwardMatch agg d tol = none) :
    ∀ c ∈ agg, ¬(d ≤ c.1 ∧ c.1 - d ≤ tol) := by
  unfold forwardMatch at hm
  rw [List.head?_eq_none_iff, List.filter_eq_nil_iff] at hm
  intro c hc h
  refine hm c hc ?_
  simp only [decide_eq_true_eq]
  exact h

/-! ## The nearest-match characterization -/

lemma nearestMatch_eq_some_spec {agg : List (ℤ × String)} {d tol : ℤ}
    (hs : agg.Pairwise (fun a b => a.1 ≤ b.1)) {m : ℤ × String}
    (hm : nearestMatch agg d tol = some m) :
    m ∈ agg ∧ |m.1 - d| ≤ tol ∧
      ∀ c ∈ agg, |c.1 - d| ≤ tol →
        |m.1 - d| < |c.1 - d| ∨ (|m.1 - d| = |c.1 - d| ∧ m.1 ≤ c.1) := by
  unfold nearestMatch at hm
  cases hb : backwardMatch agg d tol with
  | none =>
    cases hf : forwardMatch agg d tol with
    | none =>
      rw [hb, hf] at hm
      exact absurd (show (none : Option (ℤ × String)) = some m from hm) (by simp)
    | some f =>
      rw [hb, hf] at hm
      have hmf : m = f := (Option.some.inj (show some f = some m from hm)).symm
      subst hmf
      obtain ⟨hfm, hfd, hft, hfmin⟩ := forwardMatch_eq_some_spec hs hf
      have habs : |m.1 - d| = m.1 - d := abs_of_nonneg (by omega)
      refine ⟨hfm, by omega, ?_⟩
      intro c hc hct
      rcases le_total c.1 d with h1 | h1
      · have hcabs : |c.1 - d| = d - c.1 := by
          rw [abs_sub_comm]; exact abs_of_nonneg (by omega)
        exact absurd ⟨h1, by omega⟩ (backwardMatch_eq_none_spec hb c hc)
      · have hcabs : |c.1 - d| = c.1 - d := abs_of_nonneg (by omega)
        have := hfmin c hc h1 (by omega)
        omega
  | some b =>
    obtain ⟨hbm, hbd, hbt, hbmin⟩ := backwardMatch_eq_some_spec hs hb
    cases hf : forwardMatch agg d tol with
    | none =>
      rw [hb, hf] at hm
      have hmb : m = b := (Option.some.inj (show some b = some m from hm)).symm
      subst hmb
      have habs : |m.1 - d| = d - m.1 := by
        rw [abs_sub_comm]; exact abs_of_nonneg (by omega)
      refine ⟨hbm, by omega, ?_⟩
      intro c hc hct
      rcases le_total c.1 d with h1 | h1
      · have hcabs : |c.1 - d| = d - c.1 := by
          rw [abs_sub_comm]; exact abs_of_nonneg (by omega)
        have := hbmin c hc h1 (by omega)
        omega
      · have hcabs : |c.1 - d| = c.1 - d := abs_of_nonneg (by omega)
        exact absurd ⟨h1, by omega⟩ (forwardMatch_eq_none_spec hf c hc)
    | some f =>
      rw [hb, hf] at hm
      obtain ⟨hfm, hfd, hft, hfmin⟩ := forwardMatch_eq_some_spec hs hf
      have hm2 : (if d - b.1 ≤ f.1 - d then some b else some f) = some m := hm
      have hbabs : |b.1 - d| = d - b.1 := by
        rw [abs_sub_comm]; exact abs_of_nonneg (by omega)
      have hfabs : |f.1 - d| = f.1 - d := abs_of_nonneg (by omega)
      by_cases hcmp : d - b.1 ≤ f.1 - d
      · rw [if_pos hcmp] at hm2
        have hmb : m = b := (Option.some.inj hm2).symm
        subst hmb
        refine ⟨hbm, by omega, ?_⟩
        intro c hc hct
        rcases le_total c.1 d with h1 | h1
        · have hcabs : |c.1 - d| = d - c.1 := by
            rw [abs_sub_comm]; exact abs_of_nonneg (by omega)
          have := hbmin c hc h1 (by omega)
          omega
        · have hcabs : |c.1 - d| = c.1 - d := abs_of_nonneg (by omega)
          have := hfmin c hc h1 (by omega)
          omega
      · rw [if_neg hcmp] at hm2
        have hmf : m = f := (Option.some.inj hm2).symm
        subst hmf
        refine ⟨hfm, by omega, ?_⟩
        intro c hc hct
        rcases le_total c.1 d with h1 | h1
        · have hcabs : |c.1 - d| = d - c.1 := by
            rw [abs_sub_comm]; exact abs_of_nonneg (by omega)
          have := hbmin c hc h1 (by omega)
          omega
        · have hcabs : |c.1 - d| = c.1 - d := abs_of_nonneg (by omega)
          have := hfmin c hc h1 (by omega)
          omega

lemma nearestMatch_isSome_of_candidate {agg : List (ℤ × String)} {d tol : ℤ}
    {c : ℤ × String} (hc : c ∈ agg) (hct : |c.1 - d| ≤ tol) :
    ∃ m, nearestMatch agg d tol = some m := by
  rcases le_total c.1 d with h1 | h1
  · have hcabs : |c.1 - d| = d - c.1 := by rw [abs_sub_comm]; exact abs_of_nonneg (by omega)
    have hmem : c ∈ agg.filter (fun b => decide (b.1 ≤ d ∧ d - b.1 ≤ tol)) := by
      refine List.mem_filter.mpr ⟨hc, ?_⟩
      simp only [decide_eq_true_eq]
      exact ⟨h1, by omega⟩
    have hb : backwardMatch agg d tol ≠ none := by
      unfold backwardMatch
      rw [Ne, List.getLast?_eq_none_iff]
      exact List.ne_nil_of_mem hmem
    rcases hbv : backwardMatch agg d tol with _ | b
    · exact absurd hbv hb
    · unfold nearestMatch
      rw [hbv]
      cases hfv : forwardMatch agg d tol with
      | none => exact ⟨b, rfl⟩
      | some f =>
        refine ⟨if d - b.1 ≤ f.1 - d then b else f, ?_⟩
        show (if d - b.1 ≤ f.1 - d then some b else some f)
            = some (if d - b.1 ≤ f.1 - d then b else f)
        split <;> rfl
  · have hcabs : |c.1 - d| = c.1 - d := abs_of_nonneg (by omega)
    have hmem : c ∈ agg.filter (fun b => decide (d ≤ b.1 ∧ b.1 - d ≤ tol)) := by
      refine List.mem_filter.mpr ⟨hc, ?_⟩
      simp only [decide_eq_true_eq]
      exact ⟨h1, by omega⟩
    have hf : forwardMatch agg d tol ≠ none := by
      unfold forwardMatch
      rw [Ne, List.head?_eq_none_iff]
      exact List.ne_nil_of_mem hmem
    rcases hfv : forwardMatch agg d tol with _ | f
    · exact absurd hfv hf
    · unfold nearestMatch
      rw [hfv]
      cases hbv : backwardMatch agg d tol with
      | none => exact ⟨f, rfl⟩
      | some b =>
        refine ⟨if d - b.1 ≤ f.1 - d then b else f, ?_⟩
        show (if d - b.1 ≤ f.1 - d then some b else some f)
            = some (if d - b.1 ≤ f.1 - d then b else f)
        split <;> rfl

/-! ## Structure of the daily aggregation -/

lemma aggregateDaily_pairwise_lt (rows : List (ℤ × Option String)) :
    (aggregateDaily rows).Pairwise (fun a b => a.1 < b.1) := by
  unfold aggregateDaily
  rw [List.pairwise_map]
  have hsorted : (List.insertionSort (· ≤ ·)
      ((rows.map (fun r => dayStart r.1)).dedup)).Pairwise (· ≤ ·) :=
    List.sorted_insertionSort _ _
  have hnodup : (List.insertionSort (· ≤ ·)
      ((rows.map (fun r => dayStart r.1)).dedup)).Nodup :=
    ((List.perm_insertionSort (· ≤ ·) _).symm).nodup
      (List.nodup_dedup (rows.map (fun r => dayStart r.1)))
  exact (hsorted.and hnodup).imp (fun h => lt_of_le_of_ne h.1 h.2)

lemma aggregateDaily_pairwise_le (rows : List (ℤ × Option String)) :
    (aggregateDaily rows).Pairwise (fun a b => a.1 ≤ b.1) :=
  (aggregateDaily_pairwise_lt rows).imp (fun h => le_of_lt h)

lemma eq_of_key_eq_of_pairwise_lt :
    ∀ {l : List (ℤ × String)}, l.Pairwise (fun a b => a.1 < b.1) →
      ∀ {x y : ℤ × String}, x ∈ l → y ∈ l → x.1 = y.1 → x = y := by
  intro l
  induction l with
  | nil => intro _ x y hx; simp at hx
  | cons a t ih =>
    intro h x y hx hy hk
    rcases List.pairwise_cons.mp h with ⟨ha, ht⟩
    rcases List.mem_cons.mp hx with rfl | hx2
    · rcases List.mem_cons.mp hy with rfl | hy2
      · rfl
      · exact absurd hk (ne_of_lt (ha y hy2))
    · rcases List.mem_cons.mp hy with rfl | hy2
      · exact absurd hk.symm (ne_of_lt (ha x hx2))
      · exact ih ht hx2 hy2 hk

lemma mem_aggregateDaily {rows : List (ℤ × Option String)} {p : ℤ × String}
    (hp : p ∈ aggregateDaily rows) :
    (∃ r ∈ rows, dayStart r.1 = p.1)
    ∧ p.2 = String.intercalate headlineSep
        ((rows.filter (fun r => decide (dayStart r.1 = p.1))).filterMap (fun r => r.2)) := by
  unfold aggregateDaily at hp
  rcases List.mem_map.mp hp with ⟨d, hd, rfl⟩
  have hd2 : d ∈ (rows.map (fun r => dayStart r.1)).dedup :=
    ((List.perm_insertionSort _ _).mem_iff).mp hd
  have hd3 : d ∈ rows.map (fun r => dayStart r.1) := List.mem_dedup.mp hd2
  rcases List.mem_map.mp hd3 with ⟨r, hr, hrd⟩
  exact ⟨⟨r, hr, hrd⟩, rfl⟩

lemma aggregateDaily_mem_of_day {rows : List (ℤ × Option String)} {r : ℤ × Option String}
    (hr : r ∈ rows) : ∃ s, (dayStart r.1, s) ∈ aggregateDaily rows := by
  unfold aggregateDaily
  exact ⟨_, List.mem_map_of_mem _
    (((List.perm_insertionSort _ _).mem_iff).mpr
      (List.mem_dedup.mpr (List.mem_map_of_mem _ hr)))⟩

/-! ## Structure of the normalization -/

lemma tzConvertNone_length (l : List NRow) : (tzConvertNone l).length = l.length := by
  unfold tzConvertNone; split <;> simp

lemma tzConvertNone_proj (l : List NRow) :
    (tzConvertNone l).map (fun p => (p.1.1, p.2)) = l.map (fun p => (p.1.1, p.2)) := by
  unfold tzConvertNone
  split
  · rw [List.map_map]; rfl
  · rfl

lemma set_article_rows (df : ArticleDF) (h : df.rows ≠ []) :
    set_article_index_to_datetime df
      = ⟨false, (List.insertionSort nrowLe (tzConvertNone (df.rows.filterMap
          (fun r => (parseTs (dateSource df r)).map (fun t => (t, r.headline)))))).map
            mkIndexedRow⟩ := by
  unfold set_article_index_to_datetime
  rw [if_neg (by simp [h])]

lemma countP_isSome_add_countP_isNone {α β : Type} (f : α → Option β) (l : List α) :
    l.countP (fun a => (f a).isSome) + l.countP (fun a => (f a).isNone) = l.length := by
  induction l with
  | nil => simp
  | cons a t ih =>
    rw [List.countP_cons, List.countP_cons]
    cases h : f a <;> simp [h] <;> omega

lemma set_article_rows_length (df : ArticleDF) :
    (set_article_index_to_datetime df).rows.length
      = df.rows.countP (fun r => (parseTs (dateSource df r)).isSome) := by
  by_cases h : df.rows = []
  · simp [set_article_index_to_datetime, h]
  · rw [set_article_rows df h]
    rw [List.length_map, List.length_insertionSort, tzConvertNone_length,
      List.length_filterMap_eq_countP]
    refine List.countP_congr ?_
    intro r _
    simp [Option.isSome_map]

lemma set_article_rows_proj_perm (df : ArticleDF) :
    ((set_article_index_to_datetime df).rows.map (fun q => (tsOf q.idxTs, q.headline))).Perm
      (df.rows.filterMap (fun r => (parseTs (dateSource df r)).map
        (fun t => (t.1, r.headline)))) := by
  by_cases h : df.rows = []
  · simp [set_article_index_to_datetime, h]
  · rw [set_article_rows df h]
    have h1 : ((List.insertionSort nrowLe (tzConvertNone (df.rows.filterMap
        (fun r => (parseTs (dateSource df r)).map (fun t => (t, r.headline)))))).map
          mkIndexedRow).map (fun q => (tsOf q.idxTs, q.headline))
        = (List.insertionSort nrowLe (tzConvertNone (df.rows.filterMap
            (fun r => (parseTs (dateSource df r)).map (fun t => (t, r.headline)))))).map
              (fun p => (p.1.1, p.2)) := by
      rw [List.map_map]; rfl
    rw [h1]
    refine ((List.perm_insertionSort nrowLe _).map (fun p : NRow => (p.1.1, p.2))).trans ?_
    rw [tzConvertNone_proj, List.map_filterMap]
    have h2 : (fun r => ((parseTs (dateSource df r)).map
          (fun t => (t, r.headline))).map (fun p : NRow => (p.1.1, p.2)))
        = (fun r => (parseTs (dateSource df r)).map (fun t => (t.1, r.headline))) := by
      funext r
      rw [Option.map_map]
      rfl
    rw [h2]

lemma set_article_rows_key_pairwise (df : ArticleDF) :
    ((set_article_index_to_datetime df).rows.map (fun q => tsOf q.idxTs)).Pairwise (· ≤ ·) := by
  by_cases h : df.rows = []
  · simp [set_article_index_to_datetime, h]
  · rw [set_article_rows df h]
    rw [List.map_map, List.pairwise_map]
    exact List.sorted_insertionSort nrowLe _

/-! ## Timezone-strip bookkeeping for idempotence -/

lemma exists_naive_of_tzConvertNone {l : List NRow} (hne : tzConvertNone l ≠ []) :
    ∃ p ∈ tzConvertNone l, p.1.2 = false := by
  unfold tzConvertNone at hne ⊢
  by_cases hall : l.all (fun p => p.1.2) = true
  · rw [if_pos hall] at hne ⊢
    have hl : l ≠ [] := by
      intro h; rw [h] at hne; exact hne rfl
    obtain ⟨x, hx⟩ := List.exists_mem_of_ne_nil l hl
    exact ⟨((x.1.1, false), x.2), List.mem_map_of_mem _ hx, rfl⟩
  · rw [if_neg hall] at hne ⊢
    have hfalse : l.all (fun p => p.1.2) = false := by
      cases hv : l.all (fun p => p.1.2)
      · rfl
      · exact absurd hv hall
    obtain ⟨x, hx, hpx⟩ := List.all_eq_false.mp hfalse
    refine ⟨x, hx, ?_⟩
    cases hxv : x.1.2
    · rfl
    · exact absurd hxv hpx

lemma tzConvertNone_eq_self_of_exists_naive {l : List NRow} (h : ∃ p ∈ l, p.1.2 = false) :
    tzConvertNone l = l := by
  unfold tzConvertNone
  rw [if_neg]
  intro hall
  rcases h with ⟨p, hp, hfalse⟩
  have hp2 := List.all_eq_true.mp hall p hp
  rw [hfalse] at hp2
  exact absurd hp2 (by simp)

/-! ## Row-level structure of the merge -/

lemma aggOf_empty_of_rows_nil {art : ArticleDF}
    (h : (set_article_index_to_datetime art).rows = []) : aggOf art = [] := by
  unfold aggOf
  rw [h]
  rfl

lemma combine_row_headline {F : Type} {fin : List (ℤ × F)} {art : ArticleDF} {tol : ℕ}
    {r : ℤ × F × Option String} (hr : r ∈ combine_headlines_with_financial fin art tol) :
    r.2.2 = (nearestMatch (aggOf art) r.1 (hoursPerDay * (tol : ℤ))).map Prod.snd := by
  unfold combine_headlines_with_financial at hr
  by_cases h0 : fin.isEmpty
  · rw [if_pos h0] at hr; simp at hr
  · rw [if_neg h0] at hr
    by_cases h1 : (set_article_index_to_datetime art).rows.isEmpty
    · rw [if_pos h1] at hr
      rcases List.mem_map.mp hr with ⟨p, _, rfl⟩
      have hnil : aggOf art = [] := aggOf_empty_of_rows_nil (by
        cases hv : (set_article_index_to_datetime art).rows
        · rfl
        · rw [hv] at h1; exact absurd h1 (by simp))
      rw [hnil]
      rfl
    · rw [if_neg h1] at hr
      rcases List.mem_map.mp hr with ⟨p, _, rfl⟩
      rfl

lemma combine_map_fst_perm {F : Type} (fin : List (ℤ × F)) (art : ArticleDF) (tol : ℕ) :
    ((combine_headlines_with_financial fin art tol).map Prod.fst).Perm (fin.map Prod.fst) := by
  unfold combine_headlines_with_financial
  by_cases h0 : fin.isEmpty
  · rw [if_pos h0]
    cases hv : fin
    · exact List.Perm.refl _
    · rw [hv] at h0; exact absurd h0 (by simp)
  · rw [if_neg h0]
    by_cases h1 : (set_article_index_to_datetime art).rows.isEmpty
    · rw [if_pos h1]
      rw [List.map_map]
      exact (List.perm_insertionSort finLe fin).map Prod.fst
    · rw [if_neg h1]
      rw [List.map_map]
      exact (List.perm_insertionSort finLe fin).map Prod.fst

lemma combine_map_fst_pairwise {F : Type} (fin : List (ℤ × F)) (art : ArticleDF) (tol : ℕ) :
    ((combine_headlines_with_financial fin art tol).map Prod.fst).Pairwise (· ≤ ·) := by
  unfold combine_headlines_with_financial
  have hs : (List.insertionSort finLe fin).Pairwise finLe := List.sorted_insertionSort finLe fin
  by_cases h0 : fin.isEmpty
  · rw [if_pos h0]; simp
  · rw [if_neg h0]
    by_cases h1 : (set_article_index_to_datetime art).rows.isEmpty
    · rw [if_pos h1]
      rw [List.map_map, List.pairwise_map]
      exact hs
    · rw [if_neg h1]
      rw [List.map_map, List.pairwise_map]
      exact hs

lemma combine_length {F : Type} (fin : List (ℤ × F)) (art : ArticleDF) (tol : ℕ) :
    (combine_headlines_with_financial fin art tol).length = fin.length := by
  have h := (combine_map_fst_perm fin art tol).length_eq
  rw [List.length_map, List.length_map] at h
  exact h

/-! ## RSI helper lemmas -/

lemma diffClose_length (closes : List ℚ) : (diffClose closes).length = closes.length := by
  cases closes with
  | nil => rfl
  | cons p t =>
    simp only [diffClose, List.length_cons, List.length_zipWith]
    omega

lemma rollingMean_length (n : ℕ) (xs : List ℚ) : (rollingMean n xs).length = xs.length := by
  simp [rollingMean]

lemma calculate_rsi_length (closes : List ℚ) (period : ℕ) :
    (calculate_rsi closes period).length = closes.length := by
  unfold calculate_rsi
  simp [rollingMean_length, diffClose_length]

lemma exists_of_mem_zipWith {α β γ : Type} {f : α → β → γ} {c : γ} :
    ∀ {as : List α} {bs : List β}, c ∈ List.zipWith f as bs →
      ∃ a ∈ as, ∃ b ∈ bs, c = f a b := by
  intro as
  induction as with
  | nil => intro bs h; simp at h
  | cons a t ih =>
    intro bs h
    cases bs with
    | nil => simp at h
    | cons b bt =>
      rw [List.zipWith_cons_cons] at h
      rcases List.mem_cons.mp h with rfl | h2
      · exact ⟨a, List.mem_cons_self _ _, b, List.mem_cons_self _ _, rfl⟩
      · rcases ih h2 with ⟨a2, ha2, b2, hb2, hc⟩
        exact ⟨a2, List.mem_cons_of_mem _ ha2, b2, List.mem_cons_of_mem _ hb2, hc⟩

lemma rollingMean_nonneg {n : ℕ} {xs : List ℚ} (hxs : ∀ y ∈ xs, 0 ≤ y) :
    ∀ x ∈ rollingMean n xs, 0 ≤ x := by
  intro x hx
  unfold rollingMean at hx
  rcases List.mem_map.mp hx with ⟨i, _, rfl⟩
  unfold windowAvg trailingWindow
  refine div_nonneg ?_ (Nat.cast_nonneg _)
  refine List.sum_nonneg ?_
  intro y hy
  exact hxs y (List.mem_of_mem_take (List.mem_of_mem_drop hy))

lemma gainCell_nonneg (c : Option ℚ) : 0 ≤ gainCell c := by
  cases c with
  | none => exact le_refl 0
  | some d =>
    show (0 : ℚ) ≤ if 0 < d then d else 0
    by_cases h : 0 < d
    · rw [if_pos h]; exact le_of_lt h
    · rw [if_neg h]

lemma lossCell_nonneg (c : Option ℚ) : 0 ≤ lossCell c := by
  cases c with
  | none => exact le_refl 0
  | some d =>
    show (0 : ℚ) ≤ if d < 0 then -d else 0
    by_cases h : d < 0
    · rw [if_pos h]; linarith
    · rw [if_neg h]

lemma rsiFromAvgs_bounds {ag al : ℚ} (hag : 0 ≤ ag) (hal : 0 ≤ al) {x : ℚ}
    (hx : rsiFromAvgs ag al = some x) : 0 ≤ x ∧ x ≤ 100 := by
  unfold rsiFromAvgs at hx
  by_cases h0 : al = 0
  · rw [if_pos h0] at hx
    by_cases h1 : ag = 0
    · rw [if_pos h1] at hx; exact absurd hx (by simp)
    · rw [if_neg h1] at hx
      have hx2 : x = 100 := (Option.some.inj hx).symm
      subst hx2
      norm_num
  · rw [if_neg h0] at hx
    have hx2 : x = 100 - 100 / (1 + ag / al) := (Option.some.inj hx).symm
    subst hx2
    have hal2 : 0 < al := lt_of_le_of_ne hal (Ne.symm h0)
    have hrs : 0 ≤ ag / al := div_nonneg hag (le_of_lt hal2)
    have hd : 0 < 1 + ag / al := by linarith
    constructor
    · have hub : 100 / (1 + ag / al) ≤ 100 := by
        rw [div_le_iff₀ hd]
        nlinarith
      linarith
    · have hlb : 0 ≤ 100 / (1 + ag / al) := div_nonneg (by norm_num) (le_of_lt hd)
      linarith

lemma windowAvg_zero_cons (n : ℕ) (hn : 1 ≤ n) (xs : List ℚ) :
    windowAvg n ((0 : ℚ) :: xs) 0 = 0 := by
  unfold windowAvg trailingWindow
  have h1 : 0 + 1 - n = 0 := by omega
  simp [h1]

lemma rollingMean_zero_cons (n : ℕ) (hn : 1 ≤ n) (xs : List ℚ) :
    ∃ ys, rollingMean n ((0 : ℚ) :: xs) = 0 :: ys := by
  unfold rollingMean
  rw [List.length_cons, List.range_succ_eq_map, List.map_cons, windowAvg_zero_cons n hn xs]
  exact ⟨_, rfl⟩

lemma calculate_rsi_head (p : ℚ) (t : List ℚ) (n : ℕ) (hn : 1 ≤ n) :
    (calculate_rsi (p :: t) n).head? = some none := by
  unfold calculate_rsi
  have hg : (diffClose (p :: t)).map gainCell
      = 0 :: (List.zipWith (fun a b => some (b - a)) (p :: t) t).map gainCell := by
    simp [diffClose, gainCell]
  have hl : (diffClose (p :: t)).map lossCell
      = 0 :: (List.zipWith (fun a b => some (b - a)) (p :: t) t).map lossCell := by
    simp [diffClose, lossCell]
  rw [hg, hl]
  obtain ⟨ys, hys⟩ := rollingMean_zero_cons n hn
    ((List.zipWith (fun a b => some (b - a)) (p :: t) t).map gainCell)
  obtain ⟨zs, hzs⟩ := rollingMean_zero_cons n hn
    ((List.zipWith (fun a b => some (b - a)) (p :: t) t).map lossCell)
  rw [hys, hzs, List.zipWith_cons_cons, List.head?_cons]
  simp [rsiFromAvgs]

/-! ## Claim theorems for the merge -/

/-- C1: for every price-row list, bucket input and tolerance, the merge
returns exactly one output row per input price row in ascending price-date
order: the output dates are a permutation of the input dates (no price row
dropped or duplicated, no date introduced) and the row count is
preserved. -/
theorem merge_outputs_one_row_per_price_row {F : Type} (fin : List (ℤ × F))
    (art : ArticleDF) (tol : ℕ) :
    ((combine_headlines_with_financial fin art tol).map Prod.fst).Perm (fin.map Prod.fst)
    ∧ (combine_headlines_with_financial fin art tol).length = fin.length
    ∧ ((combine_headlines_with_financial fin art tol).map Prod.fst).Pairwise (· ≤ ·) :=
  ⟨combine_map_fst_perm fin art tol, combine_length fin art tol,
    combine_map_fst_pairwise fin art tol⟩

/-- C2: each merged row attaches the joined headline string of the bucket
date minimizing the absolute distance to the price date among the buckets
within the tolerance (an inclusive bound, so exactly tolerance away still
matches), with ties between equidistant buckets resolved to the earlier
date; conversely any attached headline comes from a bucket within the
tolerance, so a bucket beyond it (e.g. tolerance plus one day away) is
never used. -/
theorem merge_attaches_nearest_bucket_with_earlier_tie {F : Type}
    {fin : List (ℤ × F)} {art : ArticleDF} {tol : ℕ} {r : ℤ × F × Option String}
    (hr : r ∈ combine_headlines_with_financial fin art tol) :
    (∀ b ∈ aggOf art, |b.1 - r.1| ≤ hoursPerDay * (tol : ℤ) →
      (∀ c ∈ aggOf art, |c.1 - r.1| ≤ hoursPerDay * (tol : ℤ) →
        |b.1 - r.1| < |c.1 - r.1| ∨ (|b.1 - r.1| = |c.1 - r.1| ∧ b.1 ≤ c.1)) →
      r.2.2 = some b.2)
    ∧ (∀ s, r.2.2 = some s →
        ∃ c ∈ aggOf art, |c.1 - r.1| ≤ hoursPerDay * (tol : ℤ) ∧ s = c.2) := by
  have hrow := combine_row_headline hr
  have hple : (aggOf art).Pairwise (fun a b => a.1 ≤ b.1) := aggregateDaily_pairwise_le _
  have hplt : (aggOf art).Pairwise (fun a b => a.1 < b.1) := aggregateDaily_pairwise_lt _
  constructor
  · intro b hb hbt hbmin
    obtain ⟨m, hm⟩ := nearestMatch_isSome_of_candidate hb hbt
    obtain ⟨hmm, hmt, hmmin⟩ := nearestMatch_eq_some_spec hple hm
    have hmb : m = b := by
      have h1 := hmmin b hb hbt
      have h2 := hbmin m hmm hmt
      have hk : m.1 = b.1 := by
        rcases h1 with h1 | ⟨h1e, h1le⟩
        · rcases h2 with h2 | ⟨h2e, h2le⟩
          · linarith
          · linarith
        · rcases h2 with h2 | ⟨h2e, h2le⟩
          · linarith
          · exact le_antisymm h1le h2le
      exact eq_of_key_eq_of_pairwise_lt hplt hmm hb hk
    rw [hrow, hm, hmb]
    rfl
  · intro s hs
    rw [hrow] at hs
    cases hm : nearestMatch (aggOf art) r.1 (hoursPerDay * (tol : ℤ)) with
    | none => rw [hm] at hs; simp at hs
    | some m =>
      rw [hm] at hs
      obtain ⟨hmm, hmt, _⟩ := nearestMatch_eq_some_spec hple hm
      have hms : m.2 = s := by simpa using hs
      exact ⟨m, hmm, hmt, hms.symm⟩

/-- Witness for C2: the price date at hour 24 is exactly one day from the
buckets at hours 0 ("A") and 48 ("B") with tolerance 1; the tie goes to
the earlier bucket and "A" is attached. -/
theorem merge_attaches_nearest_bucket_with_earlier_tie_witness :
    (((24 : ℤ), (), some "A") ∈
      combine_headlines_with_financial [((24 : ℤ), ())] sampleArticlesAB 1)
    ∧ ((∀ b ∈ aggOf sampleArticlesAB,
          |b.1 - ((24 : ℤ), (), some "A").1| ≤ hoursPerDay * ((1 : ℕ) : ℤ) →
          (∀ c ∈ aggOf sampleArticlesAB,
            |c.1 - ((24 : ℤ), (), some "A").1| ≤ hoursPerDay * ((1 : ℕ) : ℤ) →
            |b.1 - ((24 : ℤ), (), some "A").1| < |c.1 - ((24 : ℤ), (), some "A").1|
              ∨ (|b.1 - ((24 : ℤ), (), some "A").1| = |c.1 - ((24 : ℤ), (), some "A").1|
                  ∧ b.1 ≤ c.1)) →
          ((24 : ℤ), (), some "A").2.2 = some b.2)
      ∧ (∀ s, ((24 : ℤ), (), some "A").2.2 = some s →
          ∃ c ∈ aggOf sampleArticlesAB,
            |c.1 - ((24 : ℤ), (), some "A").1| ≤ hoursPerDay * ((1 : ℕ) : ℤ) ∧ s = c.2)) :=
  ⟨by decide,
    @merge_attaches_nearest_bucket_with_earlier_tie Unit [((24 : ℤ), ())] sampleArticlesAB 1
      ((24 : ℤ), (), some "A") (by decide)⟩

/-- C3: a merged row with no bucket within the tolerance carries the null
marker (never the empty string); and when the normalized article input is
empty the merge still returns one row per price row, each with the null
marker, with no failure. -/
theorem merge_no_match_null_marker {F : Type} (fin : List (ℤ × F)) (art : ArticleDF)
    (tol : ℕ) :
    (∀ r ∈ combine_headlines_with_financial fin art tol,
      (∀ c ∈ aggOf art, hoursPerDay * (tol : ℤ) < |c.1 - r.1|) →
        r.2.2 = none ∧ r.2.2 ≠ some "")
    ∧ ((set_article_index_to_datetime art).rows = [] →
        (combine_headlines_with_financial fin art tol).length = fin.length
        ∧ ∀ r ∈ combine_headlines_with_financial fin art tol, r.2.2 = none) := by
  constructor
  · intro r hr hno
    have hrow := combine_row_headline hr
    cases hm : nearestMatch (aggOf art) r.1 (hoursPerDay * (tol : ℤ)) with
    | none =>
      rw [hm] at hrow
      refine ⟨hrow, ?_⟩
      rw [hrow]
      simp
    | some m =>
      obtain ⟨hmm, hmt, _⟩ :=
        nearestMatch_eq_some_spec (aggregateDaily_pairwise_le _) hm
      exact absurd hmt (not_le.mpr (hno m hmm))
  · intro hempty
    refine ⟨combine_length fin art tol, ?_⟩
    intro r hr
    have hrow := combine_row_headline hr
    rw [aggOf_empty_of_rows_nil hempty] at hrow
    exact hrow

/-- Witness for C3: with the only bucket five days away and tolerance 1,
the merged row carries the null marker and not an empty string. -/
theorem merge_no_match_null_marker_witness :
    (((0 : ℤ), (), (none : Option String)) ∈
      combine_headlines_with_financial [((0 : ℤ), ())] sampleArticleFar 1)
    ∧ (((0 : ℤ), (), (none : Option String)).2.2 = none
        ∧ ((0 : ℤ), (), (none : Option String)).2.2 ≠ some "") :=
  ⟨by decide,
    (merge_no_match_null_marker [((0 : ℤ), ())] sampleArticleFar 1).1 _ (by decide) (by decide)⟩

/-- C6 (amended): neither operation validates its parameters at the call
boundary; tolerance 0 (a non-positive value) is accepted and the merge
computes an exact-match-only result: the row count is preserved and any
attached headline comes from a bucket whose day equals the price
timestamp. -/
theorem merge_zero_tolerance_computes {F : Type} (fin : List (ℤ × F)) (art : ArticleDF) :
    (combine_headlines_with_financial fin art 0).length = fin.length
    ∧ ∀ r ∈ combine_headlines_with_financial fin art 0, ∀ s, r.2.2 = some s →
        ∃ c ∈ aggOf art, c.1 = r.1 ∧ c.2 = s := by
  refine ⟨combine_length fin art 0, ?_⟩
  intro r hr s hs
  have hrow := combine_row_headline hr
  rw [hrow] at hs
  cases hm : nearestMatch (aggOf art) r.1 (hoursPerDay * ((0 : ℕ) : ℤ)) with
  | none => rw [hm] at hs; simp at hs
  | some m =>
    rw [hm] at hs
    obtain ⟨hmm, hmt, _⟩ := nearestMatch_eq_some_spec (aggregateDaily_pairwise_le _) hm
    have ht0 : |m.1 - r.1| ≤ 0 := by simpa using hmt
    have h0 : m.1 = r.1 := by
      have := abs_nonpos_iff.mp ht0
      omega
    have hms : m.2 = s := by simpa using hs
    exact ⟨m, hmm, h0, hms⟩

/-- Witness for C6 (amended): at tolerance 0 the merge computes and the
attached headline "A" comes from the same-instant bucket. -/
theorem merge_zero_tolerance_computes_witness :
    (((0 : ℤ), (), some "A") ∈
      combine_headlines_with_financial [((0 : ℤ), ())] sampleArticleA 0)
    ∧ ∃ c ∈ aggOf sampleArticleA, c.1 = ((0 : ℤ), (), some "A").1 ∧ c.2 = "A" :=
  ⟨by decide,
    (merge_zero_tolerance_computes [((0 : ℤ), ())] sampleArticleA).2 _ (by decide) "A" (by decide)⟩

/-- C6 counterexample: a call with non-positive tolerance (0 days) is not
rejected at the boundary; the merge computes a full result, here even
attaching the same-day bucket. -/
theorem nonpositive_tolerance_not_rejected_cex :
    combine_headlines_with_financial [((0 : ℤ), ())] sampleArticleA 0
      = [(0, (), some "A")] := by decide

/-! ## Claim theorems for the indicator and the aggregation -/

/-- C7: the RSI series has the same length as the price series, and every
defined (non-NaN) value lies in the closed interval [0, 100]. -/
theorem rsi_length_and_range (closes : List ℚ) (period : ℕ) (h : 1 ≤ period) :
    (calculate_rsi closes period).length = closes.length
    ∧ ∀ v ∈ calculate_rsi closes period, ∀ x, v = some x → 0 ≤ x ∧ x ≤ 100 := by
  refine ⟨calculate_rsi_length closes period, ?_⟩
  intro v hv x hx
  unfold calculate_rsi at hv
  obtain ⟨a, ha, b, hb, rfl⟩ := exists_of_mem_zipWith hv
  have hag : 0 ≤ a := rollingMean_nonneg (fun y hy => by
    obtain ⟨c, _, rfl⟩ := List.mem_map.mp hy
    exact gainCell_nonneg c) a ha
  have hal : 0 ≤ b := rollingMean_nonneg (fun y hy => by
    obtain ⟨c, _, rfl⟩ := List.mem_map.mp hy
    exact lossCell_nonneg c) b hb
  exact rsiFromAvgs_bounds hag hal hx

/-- Witness for C7 on the two-element price series [100, 102] with the
default period 14. -/
theorem rsi_length_and_range_witness :
    (1 : ℕ) ≤ 14
    ∧ ((calculate_rsi [100, 102] 14).length = ([100, 102] : List ℚ).length
        ∧ ∀ v ∈ calculate_rsi [100, 102] 14, ∀ x, v = some x → 0 ≤ x ∧ x ≤ 100) :=
  ⟨by norm_num, rsi_length_and_range [100, 102] 14 (by norm_num)⟩

/-- C4 counterexample: on the non-empty one-element price series the first
(and only) RSI value is NaN, refuting that the first value is always
defined. -/
theorem rsi_first_value_undefined_cex :
    calculate_rsi [100] 14 = [none] ∧ ([100] : List ℚ) ≠ [] := by
  constructor
  · norm_num [calculate_rsi, diffClose, rollingMean, windowAvg, trailingWindow,
      rsiFromAvgs, gainCell, lossCell, List.range_succ]
  · simp

/-- C4 (amended): the RSI series is aligned index-for-index with the input
(lengths are equal), but the first value of a non-empty series is NaN
(undefined): the first delta is missing, so both shrinking-window averages
are 0 and RS is 0/0. -/
theorem rsi_aligned_first_value_nan (closes : List ℚ) (period : ℕ) (h : 1 ≤ period) :
    (calculate_rsi closes period).length = closes.length
    ∧ (closes ≠ [] → (calculate_rsi closes period).head? = some none) := by
  refine ⟨calculate_rsi_length closes period, ?_⟩
  intro hne
  cases closes with
  | nil => exact absurd rfl hne
  | cons p t => exact calculate_rsi_head p t period h

/-- Witness for C4 (amended) on the one-element price series [100]. -/
theorem rsi_aligned_first_value_nan_witness :
    ((1 : ℕ) ≤ 14 ∧ ([100] : List ℚ) ≠ [])
    ∧ ((calculate_rsi [100] 14).length = ([100] : List ℚ).length
        ∧ (calculate_rsi [100] 14).head? = some none) :=
  ⟨⟨by norm_num, by simp⟩,
    ⟨(rsi_aligned_first_value_nan [100] 14 (by norm_num)).1,
      (rsi_aligned_first_value_nan [100] 14 (by norm_num)).2 (by simp)⟩⟩

/-- C5 counterexample: on a day holding a NaN headline followed by "A", the
source drops the NaN and joins to "A", while converting nulls to empty
strings before joining, as the claim states, would give " || A". -/
theorem aggregate_null_conversion_cex :
    aggregateDaily sampleRowsNullA = [(0, "A")]
    ∧ aggregateDailySpec sampleRowsNullA = [(0, " || A")]
    ∧ ("A" : String) ≠ " || A" :=
  ⟨by decide, by decide, by decide⟩

/-- C5 (amended): the aggregation emits one bucket for every day that has
at least one article (even when every headline that day is null), and each
bucket joins, with separator " || " and in row order, the non-null
headlines of its day — null/missing headlines are dropped before joining
rather than converted to empty strings. -/
theorem aggregate_daily_buckets_and_join (rows : List (ℤ × Option String)) :
    (∀ r ∈ rows, ∃ s, (dayStart r.1, s) ∈ aggregateDaily rows)
    ∧ (∀ p ∈ aggregateDaily rows,
        (∃ r ∈ rows, dayStart r.1 = p.1)
        ∧ p.2 = String.intercalate headlineSep
            ((rows.filter (fun r => decide (dayStart r.1 = p.1))).filterMap (fun r => r.2))) := by
  constructor
  · intro r hr
    exact aggregateDaily_mem_of_day hr
  · intro p hp
    exact mem_aggregateDaily hp

/-- Witness for C5 (amended): the all-null-headline day of the sample rows
still gets a bucket. -/
theorem aggregate_daily_buckets_and_join_witness :
    ((0 : ℤ), (none : Option String)) ∈ sampleRowsNullA
    ∧ ∃ s, (dayStart (0 : ℤ), s) ∈ aggregateDaily sampleRowsNullA :=
  ⟨by decide,
    (aggregate_daily_buckets_and_join sampleRowsNullA).1 ((0 : ℤ), (none : Option String))
      (by decide)⟩

/-! ## Claim theorems for the normalization -/

/-- C8: normalization drops exactly the records whose timestamp fails to
parse — the output length is the input length minus the unparsable
count — and the surviving (instant, headline) pairs are exactly those of
the parsable records, so one bad record never aborts the rest. -/
theorem normalize_drops_exactly_unparsable (df : ArticleDF) :
    (set_article_index_to_datetime df).rows.length
      = df.rows.length - df.rows.countP (fun r => (parseTs (dateSource df r)).isNone)
    ∧ ((set_article_index_to_datetime df).rows.map
        (fun q => (tsOf q.idxTs, q.headline))).Perm
      (df.rows.filterMap (fun r => (parseTs (dateSource df r)).map
        (fun t => (t.1, r.headline)))) := by
  constructor
  · have h1 := set_article_rows_length df
    have h2 := countP_isSome_add_countP_isNone (fun r => parseTs (dateSource df r)) df.rows
    omega
  · exact set_article_rows_proj_perm df

/-- C9: normalization is idempotent — applying
`set_article_index_to_datetime` to its own output returns the very same
frame (same records, same timestamps, same ascending order). -/
theorem normalize_idempotent (df : ArticleDF) :
    set_article_index_to_datetime (set_article_index_to_datetime df)
      = set_article_index_to_datetime df := by
  by_cases h0 : df.rows = []
  · simp [set_article_index_to_datetime, h0]
  · rw [set_article_rows df h0]
    by_cases hL0 : (List.insertionSort nrowLe (tzConvertNone (df.rows.filterMap
        (fun r => (parseTs (dateSource df r)).map (fun t => (t, r.headline)))))) = []
    · simp [set_article_index_to_datetime, hL0]
    · set L := List.insertionSort nrowLe (tzConvertNone (df.rows.filterMap
        (fun r => (parseTs (dateSource df r)).map (fun t => (t, r.headline))))) with hLdef
      have hne2 : (⟨false, L.map mkIndexedRow⟩ : ArticleDF).rows ≠ [] := by
        simp [hL0]
      rw [set_article_rows ⟨false, L.map mkIndexedRow⟩ hne2]
      have hparsed2 : (⟨false, L.map mkIndexedRow⟩ : ArticleDF).rows.filterMap
          (fun r => (parseTs (dateSource ⟨false, L.map mkIndexedRow⟩ r)).map
            (fun t => (t, r.headline))) = L := by
        show (L.map mkIndexedRow).filterMap _ = L
        rw [List.filterMap_map]
        have hfun : ((fun r => (parseTs (dateSource ⟨false, L.map mkIndexedRow⟩ r)).map
            (fun t => (t, r.headline))) ∘ mkIndexedRow) = fun p : NRow => some p := by
          funext p
          simp [dateSource, mkIndexedRow, parseTs]
        rw [hfun]
        exact List.filterMap_some L
      rw [hparsed2]
      have hBne : tzConvertNone (df.rows.filterMap
          (fun r => (parseTs (dateSource df r)).map (fun t => (t, r.headline)))) ≠ [] := by
        intro hB
        apply hL0
        rw [hLdef, hB]
        rfl
      obtain ⟨p0, hp0mem, hp0f⟩ := exists_naive_of_tzConvertNone hBne
      have hp0L : p0 ∈ L := by
        rw [hLdef]
        exact ((List.perm_insertionSort nrowLe _).mem_iff).mpr hp0mem
      rw [tzConvertNone_eq_self_of_exists_naive ⟨p0, hp0L, hp0f⟩]
      have hsorted : L.Sorted nrowLe := by
        rw [hLdef]
        exact List.sorted_insertionSort nrowLe _
      rw [hsorted.insertionSort_eq]

/-- C10 counterexample: a non-empty frame lacking the timestamp column
whose only index entry is unparsable normalizes to the empty frame,
refuting that the result is never empty. -/
theorem normalize_missing_column_empty_cex :
    set_article_index_to_datetime sampleBadIndex = ⟨false, []⟩
    ∧ sampleBadIndex.hasDateCol = false ∧ sampleBadIndex.rows ≠ [] :=
  ⟨by decide, by decide, by decide⟩

/-- C10 (amended): on a non-empty frame lacking the timestamp column,
normalization does not raise and coerces the existing index instead: it
keeps exactly the rows whose index entry parses (so the result is empty
precisely when no index entry parses), sorts the survivors ascending by
instant, and is non-empty as soon as one index entry parses. -/
theorem normalize_index_fallback (df : ArticleDF) (hcol : df.hasDateCol = false)
    (hne : df.rows ≠ []) :
    (set_article_index_to_datetime df).rows.length
      = df.rows.countP (fun r => (parseTs r.idxTs).isSome)
    ∧ ((set_article_index_to_datetime df).rows.map (fun q => tsOf q.idxTs)).Pairwise (· ≤ ·)
    ∧ ((∃ r ∈ df.rows, (parseTs r.idxTs).isSome) →
        (set_article_index_to_datetime df).rows ≠ []) := by
  have hds : ∀ r, dateSource df r = r.idxTs := by
    intro r
    simp [dateSource, hcol]
  refine ⟨?_, set_article_rows_key_pairwise df, ?_⟩
  · rw [set_article_rows_length df]
    refine List.countP_congr ?_
    intro r _
    rw [hds r]
  · intro hex
    rcases hex with ⟨r, hr, hp⟩
    have hlen := set_article_rows_length df
    have hpos : 0 < df.rows.countP (fun q => (parseTs (dateSource df q)).isSome) :=
      List.countP_pos_iff.mpr ⟨r, hr, by rw [hds r]; exact hp⟩
    intro hnil
    rw [hnil] at hlen
    simp at hlen
    omega

/-- Witness for C10 (amended) on a column-less frame with two parsable
index entries and one unparsable one. -/
theorem normalize_index_fallback_witness :
    (sampleIndexOnly.hasDateCol = false ∧ sampleIndexOnly.rows ≠ []
      ∧ ∃ r ∈ sampleIndexOnly.rows, (parseTs r.idxTs).isSome)
    ∧ ((set_article_index_to_datetime sampleIndexOnly).rows.length
        = sampleIndexOnly.rows.countP (fun r => (parseTs r.idxTs).isSome)
      ∧ (set_article_index_to_datetime sampleIndexOnly).rows ≠ []) :=
  ⟨⟨by decide, by decide, by decide⟩,
    ⟨(normalize_index_fallback sampleIndexOnly (by decide) (by decide)).1,
      (normalize_index_fallback sampleIndexOnly (by decide) (by decide)).2.2 (by decide)⟩⟩

end FinancialData
